import Mathlib

/-!
Verification of the retroterm launcher core: a shallow embedding of the
ROM scanner (`RomScanner.js`), the preferences recent-games list
(`Preferences.js`) and the launcher's navigation / gamepad-polling state
machine (`Launcher.js`), together with theorems settling the specification
claims about them.

Modelling conventions:
* Filesystem paths are lists of name components relative to the scanned
  root directory (`path.join(dir, entry)` becomes `dir ++ [entry]`).
* JS strings are Lean `String`s; the handful of `path` module functions the
  scanner uses (`extname`, `basename` with a suffix argument) are
  re-implemented below over `String.data` character lists, following the
  Node.js posix implementations.  Inputs are ASCII file names, for which
  JS UTF-16 `length`/`toLowerCase` agree with Lean's character-based
  `length`/`Char.toLower`.
* JS numbers that hold millisecond timestamps are `Int` (JS `%` is the
  truncating `Int.tmod`); analog axis values and the contrast setting are
  `ℚ`.  On the slider's integer domain 1..10 the rational computation of
  the contrast value agrees with IEEE double arithmetic (in particular the
  double `0.5 + 3 * (1.5 / 9)` is exactly `1.0` and the double
  `0.5 + 4 * (1.5 / 9)` is not `1.0`).
* The filesystem is a tree: `FsTree.file` is an ordinary file,
  `FsTree.zip m` a file that, when opened as a zip archive, either fails to
  open (`m = none`, the rejection the source catches) or yields the complete
  member listing `ms` (`m = some ms`), `FsTree.badstat` an entry whose
  `statSync` throws, and `FsTree.dir ok es` a directory whose `readdirSync`
  throws when `ok = false`.  Caught exceptions are therefore just these
  constructors.  There is one archive outcome `_scanZip` produces no value
  for at all: the zipfile emitting `error` while `readEntry()` walks the
  entries.  The source attaches no `error` listener and its inner promise
  only resolves on `end`, so that event throws an uncaught exception outside
  the `try`/`catch` and the awaited promise never settles.  `FsTree`
  deliberately covers only the value-producing outcomes; the unhandled
  outcome is modelled by `ZipEnum` and the `Option`-valued `scanZipE`, where
  `none` stands for "no result is ever produced".
-/

/-- JS `String.prototype.startsWith`, over character lists. -/
def jsStartsWith (s pre : String) : Bool :=
  pre.data.isPrefixOf s.data

/-- JS `String.prototype.endsWith`, over character lists. -/
def jsEndsWith (s suf : String) : Bool :=
  suf.data.isSuffixOf s.data

/-- JS `String.prototype.toLowerCase` (ASCII-faithful). -/
def lowerStr (s : String) : String :=
  ⟨s.data.map Char.toLower⟩

/-- The last path segment of `s`: trailing `/` separators are dropped and
everything up to the last remaining `/` is removed.  This mirrors how the
Node.js posix `basename`/`extname` scanners delimit the relevant portion. -/
def lastPortion (s : String) : String :=
  ⟨((s.data.reverse.dropWhile (fun c => c = '/')).takeWhile (fun c => c ≠ '/')).reverse⟩

/-- Node.js `path.extname`: the suffix of the last path segment from its last
dot, except that a dot in first position (hidden-file convention) or the
segment `".."` yields no extension. -/
def extname (s : String) : String :=
  let b := (lastPortion s).data
  if b = ['.', '.'] then "" else
  let revAfter := b.reverse.takeWhile (fun c => c ≠ '.')
  if revAfter.length = b.length then ""
  else if b.length - revAfter.length - 1 = 0 then ""
  else ⟨'.' :: revAfter.reverse⟩

/-- Node.js `path.basename(path, suffix)`: the last path segment, with
`suffix` removed when it is a proper trailing part of that segment. -/
def basenameSuffix (s ext : String) : String :=
  let b := lastPortion s
  if 0 < ext.data.length && ext.data.length < b.data.length && jsEndsWith b ext then
    ⟨b.data.take (b.data.length - ext.data.length)⟩
  else b

/-- The JS regular expression test `/^\d+$/.test(s)`. -/
def isAllDigits (s : String) : Bool :=
  !s.data.isEmpty && s.data.all Char.isDigit

/-- `ROM_EXTENSIONS` from RomScanner.js. -/
def ROM_EXTENSIONS : List String :=
  [".nes", ".fds", ".unf", ".unif",
   ".sfc", ".smc",
   ".gb", ".gbc", ".gba",
   ".md", ".gen", ".smd", ".bin",
   ".sms", ".gg", ".sg",
   ".a26", ".a52", ".a78",
   ".xex", ".atr", ".atx", ".bas", ".car", ".xfd",
   ".lnx", ".o",
   ".pce", ".cue", ".ccd", ".chd",
   ".ngp", ".ngc",
   ".ws", ".wsc",
   ".col",
   ".vec",
   ".tzx", ".z80", ".sna",
   ".mx1", ".mx2", ".rom", ".dsk", ".cas",
   ".iso", ".pbp", ".m3u"]

/-- `SYSTEM_NAMES` from RomScanner.js. -/
def SYSTEM_NAMES : List (String × String) :=
  [(".nes", "NES"), (".fds", "NES"), (".unf", "NES"), (".unif", "NES"),
   (".sfc", "SNES"), (".smc", "SNES"),
   (".gb", "Game Boy"), (".gbc", "Game Boy Color"), (".gba", "Game Boy Advance"),
   (".md", "Genesis"), (".gen", "Genesis"), (".smd", "Genesis"), (".bin", "Genesis"),
   (".sms", "Master System"), (".gg", "Game Gear"), (".sg", "SG-1000"),
   (".a26", "Atari 2600"), (".a52", "Atari 5200"), (".a78", "Atari 7800"),
   (".xex", "Atari 800"), (".atr", "Atari 800"), (".atx", "Atari 800"),
   (".bas", "Atari 800"), (".car", "Atari 800"), (".xfd", "Atari 800"),
   (".lnx", "Lynx"), (".o", "Lynx"),
   (".pce", "PC Engine"), (".cue", "PC Engine"), (".ccd", "PC Engine"), (".chd", "PC Engine"),
   (".ngp", "Neo Geo Pocket"), (".ngc", "Neo Geo Pocket Color"),
   (".ws", "WonderSwan"), (".wsc", "WonderSwan Color"),
   (".col", "ColecoVision"),
   (".vec", "Vectrex"),
   (".tzx", "ZX Spectrum"), (".z80", "ZX Spectrum"), (".sna", "ZX Spectrum"),
   (".mx1", "MSX"), (".mx2", "MSX"), (".rom", "MSX"), (".dsk", "MSX"), (".cas", "MSX"),
   (".iso", "PlayStation"), (".pbp", "PlayStation"), (".m3u", "PlayStation"),
   (".zip", "Archive")]

/-- `SYSTEM_NAMES[ext] || 'Unknown'`. -/
def systemFor (ext : String) : String :=
  (SYSTEM_NAMES.lookup ext).getD "Unknown"

/-- One catalog entry produced by the scanner (`{name, path, zipEntry, ext, system}`).
`path` is the component list below the scanned root; `zipEntry` is the inner
member name when the entry was found inside an archive. -/
structure RomEntry where
  name : String
  path : List String
  zipEntry : Option String
  ext : String
  system : String
deriving DecidableEq, Repr

/-- The filesystem seen by a scan (see the module docstring).  The `zip`
constructor carries exactly the archive outcomes `_scanZip` produces a value
for — open failure (`none`, caught and degraded to no entries) or a complete
member listing (`some ms`).  An archive that opens and then errors during
enumeration produces no value in the source (uncaught `error` event, promise
never settles); that outcome is outside this tree and is modelled by
`ZipEnum` / `scanZipE` below. -/
inductive FsTree where
  | file : FsTree
  | zip : Option (List String) → FsTree
  | badstat : FsTree
  | dir : Bool → List (String × FsTree) → FsTree
deriving Repr

/-- Processing of one archive member inside `RomScanner._scanZip`: members with
a recognized (lowercased) extension that are not under `__MACOSX` become
entries; purely numeric or shorter-than-3 base names are replaced by the
archive's own base name `zipName`. -/
def zipMemberEntry (zipPath : List String) (zipName : String) (fileName : String) :
    Option RomEntry :=
  let ext := lowerStr (extname fileName)
  if ROM_EXTENSIONS.contains ext && !jsStartsWith fileName "__MACOSX" then
    let romName0 := basenameSuffix fileName ext
    let romName := if isAllDigits romName0 || romName0.data.length < 3 then zipName else romName0
    some { name := romName, path := zipPath, zipEntry := some fileName,
           ext := ext, system := systemFor ext }
  else none

/-- The `zipName` computed by `_scanZip`: `basename(zipPath, extname(zipPath))`. -/
def zipBaseName (zipPath : List String) : String :=
  let zipLast := (zipPath.getLast?).getD ""
  basenameSuffix zipLast (extname zipLast)

/-- `RomScanner._scanZip` on the value-producing outcomes: an archive that
cannot be opened contributes nothing (the caught rejection), a complete
listing contributes its matching members.  The outcome with no value — the
enumeration erroring mid-stream, which the source leaves unhandled — is
covered by `scanZipE` below. -/
def scanZip (zipPath : List String) (node : FsTree) : List RomEntry :=
  match node with
  | .zip (some members) => members.filterMap (zipMemberEntry zipPath (zipBaseName zipPath))
  | _ => []

/-- The three ways the archive enumeration in `_scanZip` can actually end:
the `open` callback fails (`err` → reject, caught by the surrounding
`try`/`catch`); the `entry`/`end` event stream runs to completion; or the
zipfile emits `error` while `readEntry()` walks a corrupt central directory
(bad entry headers, invalid member names).  `_scanZip` installs no `error`
listener and its inner promise only ever resolves on `end`, so in the third
case the event emitter throws an uncaught exception outside the
`try`/`catch` and the awaited promise never settles. -/
inductive ZipEnum where
  | openFailed : ZipEnum
  | complete : List String → ZipEnum
  | errorDuring : List String → ZipEnum
deriving Repr

/-- `RomScanner._scanZip` over the full outcome space of the enumeration:
`some roms` when a value is produced, `none` when no value is ever produced
— the uncaught `error` event crashes the process, and the never-settled
promise would otherwise hang the scan, so the rest of the tree is not
cataloged.  On the value-producing outcomes it agrees with `scanZip`. -/
def scanZipE (zipPath : List String) : ZipEnum → Option (List RomEntry)
  | .openFailed => some []
  | .complete members =>
    some (members.filterMap (zipMemberEntry zipPath (zipBaseName zipPath)))
  | .errorDuring _ => none

/-- The `stat.isFile()` branch of `RomScanner._scanDir`: a `.zip` name is
peeked into, a recognized extension becomes a plain entry, anything else is
ignored. -/
def handleFile (fullPath : List String) (name : String) (node : FsTree) : List RomEntry :=
  let ext := lowerStr (extname name)
  if ext = ".zip" then scanZip fullPath node
  else if ROM_EXTENSIONS.contains ext then
    [{ name := basenameSuffix name ext, path := fullPath, zipEntry := none,
       ext := ext, system := systemFor ext }]
  else []

/-- Processing of one directory entry of `RomScanner._scanDir`, parameterized
by the recursion `recur` used for readable subdirectories. -/
def scanDirEntry (recur : List String → List (String × FsTree) → List RomEntry)
    (p : List String) (e : String × FsTree) : List RomEntry :=
  if jsStartsWith e.1 "." then []
  else
    match e.2 with
    | .dir ok es => if ok then recur (p ++ [e.1]) es else []
    | .badstat => []
    | .file => handleFile (p ++ [e.1]) e.1 .file
    | .zip m => handleFile (p ++ [e.1]) e.1 (.zip m)

/-- `RomScanner._scanDir` over the listing of a directory already being read.
`fuel` is the number of further subdirectory levels that may still be read
(the source's `if (depth > 3) return` with the root at depth 0 gives the
root listing `fuel = 3`). -/
def scanForest : Nat → List String → List (String × FsTree) → List RomEntry
  | 0, p, es => es.flatMap (scanDirEntry (fun _ _ => []) p)
  | fuel + 1, p, es => es.flatMap (scanDirEntry (scanForest fuel) p)

/-- The recursion actually used by `scanForest` at a given fuel level:
no fuel left means a subdirectory at depth > 3, which returns immediately. -/
def scanRecur : Nat → List String → List (String × FsTree) → List RomEntry
  | 0, _, _ => []
  | fuel + 1, p, es => scanForest fuel p es

/-- The entry `_scanDir` pushes for a plain file with a recognized
extension. -/
def plainEntry (fullPath : List String) (name : String) : RomEntry :=
  { name := basenameSuffix name (lowerStr (extname name)), path := fullPath,
    zipEntry := none, ext := lowerStr (extname name),
    system := systemFor (lowerStr (extname name)) }

/-- `RomScanner.scan` before sorting: read the root directory (an unreadable
root contributes nothing) and walk it with three levels of recursion. -/
def scanRootList (t : FsTree) : List RomEntry :=
  match t with
  | .dir true es => scanForest 3 [] es
  | _ => []

/-- Code-point lexicographic comparison on character lists. -/
def charListLe : List Char → List Char → Bool
  | [], _ => true
  | _ :: _, [] => false
  | c :: cs, d :: ds =>
    if c.val < d.val then true
    else if d.val < c.val then false
    else charListLe cs ds

/-- The name comparison used to order the flat catalog. -/
def nameLe (a b : RomEntry) : Bool :=
  charListLe a.name.data b.name.data

/-- Stable insertion into a name-sorted list. -/
def insertByName (x : RomEntry) : List RomEntry → List RomEntry
  | [] => [x]
  | y :: ys => if nameLe x y then x :: y :: ys else y :: insertByName x ys

/-- The `roms.sort((a, b) => a.name.localeCompare(b.name))` step.
`localeCompare` is locale-dependent; it is modelled as code-point order, and
every claim below is insensitive to the order chosen. -/
def sortByName : List RomEntry → List RomEntry
  | [] => []
  | x :: xs => insertByName x (sortByName xs)

/-- `RomScanner.scan`: the flat catalog, sorted by name. -/
def scan (t : FsTree) : List RomEntry :=
  sortByName (scanRootList t)

/-- Real directory listings bind each name at most once; `wfForest fuel es`
states this for every listing reachable within `fuel` recursion levels. -/
def wfForest : Nat → List (String × FsTree) → Bool
  | 0, es => decide ((es.map Prod.fst).Nodup)
  | fuel + 1, es =>
    decide ((es.map Prod.fst).Nodup) &&
    es.all (fun e =>
      match e.2 with
      | .dir _ es' => wfForest fuel es'
      | _ => true)

/-- First binding of `n` in a directory listing (`readdirSync` order). -/
def forestLookup (es : List (String × FsTree)) (n : String) : Option FsTree :=
  (es.find? (fun e => e.1 = n)).map Prod.snd

/-- `hasRomFileAt fuel es ds fname` holds when following the directory
components `ds` from the listing `es` (each step entering a readable
subdirectory, consuming one unit of `fuel`) ends at a plain-file node named
`fname` (a node on which `stat.isFile()` is true). -/
def hasRomFileAt : Nat → List (String × FsTree) → List String → String → Bool
  | _, es, [], fname =>
    match forestLookup es fname with
    | some .file => true
    | some (.zip _) => true
    | _ => false
  | 0, _, _ :: _, _ => false
  | fuel + 1, es, n :: rest, fname =>
    match forestLookup es n with
    | some (.dir true es') => hasRomFileAt fuel es' rest fname
    | _ => false

/-- `Preferences.addRecentGame`: remove all occurrences of the path, put it
in front, cap the list at `maxRecent`. -/
def addRecentGame (recentGames : List String) (romPath : String) (maxRecent : Nat) :
    List String :=
  let recent := recentGames.filter (fun p => p ≠ romPath)
  let recent := romPath :: recent
  recent.take maxRecent

/-- The preference fields `Launcher._launchGame` reads (`DEFAULTS` shape). -/
structure Config where
  recentGames : List String
  maxRecent : Nat
  symbols : String
  colors : String
  fgOnly : Bool
  dither : Bool
  contrast : ℚ
deriving Repr

/-- `DEFAULTS` from Preferences.js (the fields used for launching). -/
def DEFAULTS : Config :=
  { recentGames := [], maxRecent := 10, symbols := "ascii+block", colors := "256",
    fgOnly := true, dither := false, contrast := 5 }

/-- The slider-to-contrast conversion in `Launcher._launchGame`:
`0.5 + (contrastSlider - 1) * (1.5 / 9)`. -/
def contrastValue (contrastSlider : ℚ) : ℚ :=
  1/2 + (contrastSlider - 1) * ((3/2) / 9)

/-- JS `Number.prototype.toFixed(2)` for the nonnegative contrast values the
launcher prints (nearest hundredth, ties rounded up). -/
def ratToFixed2 (q : ℚ) : String :=
  let n : Int := ⌊q * 100 + 1/2⌋
  let m := n.natAbs
  (if n < 0 then "-" else "") ++ Nat.repr (m / 100) ++ "." ++
    (if m % 100 < 10 then "0" else "") ++ Nat.repr (m % 100)

/-- The emulator argument list built by `Launcher._launchGame`. -/
def launchGameArgs (romPath : String) (cfg : Config) : List String :=
  let args := [romPath]
  let args := args ++ ["--symbols", cfg.symbols]
  let args := args ++ ["--colors", cfg.colors]
  let args := args ++ (if cfg.fgOnly then ["--fg-only"] else [])
  let args := args ++ (if cfg.dither then ["--dither"] else [])
  let contrastSlider := if cfg.contrast = 0 then 5 else cfg.contrast
  let cv := contrastValue contrastSlider
  args ++ (if cv ≠ 1 then ["--contrast", ratToFixed2 cv] else [])

/-- `Launcher._showRecentRoms` list construction: resolve each stored path to
the first catalog entry with that `path`, dropping paths that resolve to
nothing. -/
def showRecentRoms (recent : List (List String)) (roms : List RomEntry) : List RomEntry :=
  (recent.map (fun path => roms.find? (fun r => r.path = path))).filterMap id

/-- `Launcher._getSelectedRom`: index into the active list (`null` when no
list is loaded, `undefined`-as-none when out of range). -/
def getSelectedRom (sortedRoms : Option (List RomEntry)) (index : Int) : Option RomEntry :=
  match sortedRoms with
  | none => none
  | some l => if 0 ≤ index then l.get? index.toNat else none

/-- `Launcher._navigateUp`: move the highlight up unless already at 0. -/
def navigateUp (selected : Int) : Int :=
  if 0 ≤ selected - 1 then selected - 1 else selected

/-- `Launcher._navigateDown`: move the highlight down unless at the end of
the active list (whose absence counts as length 0). -/
def navigateDown (len : Nat) (selected : Int) : Int :=
  if selected + 1 < (len : Int) then selected + 1 else selected

/-- The four highlight-movement commands: single steps and the 10-step
shoulder-button page moves. -/
inductive NavCmd where
  | up | down | pageUp | pageDown
deriving DecidableEq, Repr

/-- One highlight-movement command applied to the highlight index. -/
def navStep (len : Nat) (selected : Int) : NavCmd → Int
  | .up => navigateUp selected
  | .down => navigateDown len selected
  | .pageUp => (navigateUp)^[10] selected
  | .pageDown => (navigateDown len)^[10] selected

/-- A whole sequence of highlight-movement commands. -/
def navRun (len : Nat) (selected : Int) (cmds : List NavCmd) : Int :=
  cmds.foldl (navStep len) selected

/-- A polled gamepad snapshot: per-button pressed state and analog axes. -/
structure Gamepad where
  buttons : List Bool
  axes : List ℚ

/-- The normalized commands the polling loop can dispatch.  `launch`,
`recent` and `settings` are the edge-triggered A/Start, X and Y actions;
the `dlg` commands are the settings-dialog command set. -/
inductive Cmd where
  | navUp | navDown | prevSystem | nextSystem
  | launch | recent | settings
  | dlgClose | dlgSave | dlgFocusPrev | dlgFocusNext
  | dlgAdjust (delta : Int) | dlgToggle
deriving DecidableEq, Repr

/-- The `pressed` edge-detection helper in `Launcher._handleGamepadInput`:
returns the press edge and the updated previous-state map. -/
def pressedEdge (buttons : List Bool) (idx : Nat) (prev : Nat → Bool) :
    Bool × (Nat → Bool) :=
  let isPressed := buttons.getD idx false
  let wasPressed := prev idx
  (isPressed && !wasPressed, fun i => if i = idx then isPressed else prev i)

/-- The `heldWithRepeat` helper: first activation fires immediately; after a
300ms hold it fires roughly every 80ms, detected by comparing the current and
previous tick's position in the 80ms window (JS `%` on possibly negative
numbers is `Int.tmod`).  A hold start time of `0` is the JS-falsy "no hold"
sentinel (`if (!hold[key])`). -/
def heldWithRepeat (now : Int) (holdStart : Int) (isActive : Bool) : Bool × Int :=
  if isActive then
    if holdStart = 0 then (true, now)
    else
      let elapsed := now - holdStart
      if 300 < elapsed then
        let repeatElapsed := (elapsed - 300).tmod 80
        let prevRepeatElapsed := (elapsed - 300 - 16).tmod 80
        (decide (repeatElapsed < prevRepeatElapsed) || decide (elapsed - 300 < 16), holdStart)
      else (false, holdStart)
  else (false, 0)

/-- The per-direction hold start times (`this._holdTime`), with `0` for "not
held". -/
structure HoldState where
  up : Int
  down : Int
  left : Int
  right : Int
  lb : Int
  rb : Int
deriving Repr

/-- All hold timers clear. -/
def HoldState.init : HoldState :=
  { up := 0, down := 0, left := 0, right := 0, lb := 0, rb := 0 }

/-- The settings-dialog branch of `Launcher._handleGamepadInput`: a chain of
edge detections with early return, so at most one dialog command fires per
tick and later buttons keep their stale previous-state on an early return. -/
def settingsInput (buttons : List Bool) (prev0 : Nat → Bool) :
    (Nat → Bool) × List Cmd :=
  let r1 := pressedEdge buttons 1 prev0
  if r1.1 then (r1.2, [Cmd.dlgClose]) else
  let r0 := pressedEdge buttons 0 r1.2
  if r0.1 then (r0.2, [Cmd.dlgSave]) else
  let r9 := pressedEdge buttons 9 r0.2
  if r9.1 then (r9.2, [Cmd.dlgSave]) else
  let r12 := pressedEdge buttons 12 r9.2
  if r12.1 then (r12.2, [Cmd.dlgFocusPrev]) else
  let r13 := pressedEdge buttons 13 r12.2
  if r13.1 then (r13.2, [Cmd.dlgFocusNext]) else
  let r14 := pressedEdge buttons 14 r13.2
  if r14.1 then (r14.2, [Cmd.dlgAdjust (-1)]) else
  let r15 := pressedEdge buttons 15 r14.2
  if r15.1 then (r15.2, [Cmd.dlgAdjust 1]) else
  let r2 := pressedEdge buttons 2 r15.2
  if r2.1 then (r2.2, [Cmd.dlgToggle]) else
  (r2.2, [])

/-- The normal-navigation branch of `Launcher._handleGamepadInput`:
d-pad/stick directions with auto-repeat, shoulder buttons as 10-step page
moves, then edge-triggered A/X/Y/Start.  Commands are listed in the source's
dispatch order. -/
def navInput (now : Int) (gp : Gamepad) (prev : Nat → Bool) (hold : HoldState) :
    (Nat → Bool) × HoldState × List Cmd :=
  let btn := fun i => gp.buttons.getD i false
  let leftStickY := gp.axes.getD 1 0
  let leftStickX := gp.axes.getD 0 0
  let upActive := btn 12 || decide (leftStickY < -(1/2 : ℚ))
  let downActive := btn 13 || decide ((1/2 : ℚ) < leftStickY)
  let leftActive := btn 14 || decide (leftStickX < -(1/2 : ℚ))
  let rightActive := btn 15 || decide ((1/2 : ℚ) < leftStickX)
  let rUp := heldWithRepeat now hold.up upActive
  let rDown := heldWithRepeat now hold.down downActive
  let rLeft := heldWithRepeat now hold.left leftActive
  let rRight := heldWithRepeat now hold.right rightActive
  let rLb := heldWithRepeat now hold.lb (btn 4)
  let rRb := heldWithRepeat now hold.rb (btn 5)
  let e0 := pressedEdge gp.buttons 0 prev
  let e2 := pressedEdge gp.buttons 2 e0.2
  let e3 := pressedEdge gp.buttons 3 e2.2
  let e9 := pressedEdge gp.buttons 9 e3.2
  let cmds :=
    (if rUp.1 then [Cmd.navUp] else []) ++
    (if rDown.1 then [Cmd.navDown] else []) ++
    (if rLeft.1 then [Cmd.prevSystem] else []) ++
    (if rRight.1 then [Cmd.nextSystem] else []) ++
    (if rLb.1 then List.replicate 10 Cmd.navUp else []) ++
    (if rRb.1 then List.replicate 10 Cmd.navDown else []) ++
    (if e0.1 then [Cmd.launch] else []) ++
    (if e2.1 then [Cmd.recent] else []) ++
    (if e3.1 then [Cmd.settings] else []) ++
    (if e9.1 then [Cmd.launch] else [])
  (e9.2,
   { up := rUp.2, down := rDown.2, left := rLeft.2, right := rRight.2,
     lb := rLb.2, rb := rRb.2 },
   cmds)

/-- The state owned by the polling loop set up in
`Launcher._startControllerPolling`. -/
structure PollState where
  waitingForRelease : Bool
  prevButtons : Nat → Bool
  hold : HoldState
  settingsOpen : Bool

/-- The state installed by `_startControllerPolling`: the await-release gate
is armed and the edge/hold maps are empty. -/
def PollState.start (settingsOpen : Bool) : PollState :=
  { waitingForRelease := true, prevButtons := fun _ => false,
    hold := HoldState.init, settingsOpen := settingsOpen }

/-- `Launcher._handleGamepadInput` on the first connected gamepad. -/
def handleGamepadInput (s : PollState) (now : Int) (gp : Gamepad) :
    PollState × List Cmd :=
  if s.settingsOpen then
    let r := settingsInput gp.buttons s.prevButtons
    ({ s with prevButtons := r.1 }, r.2)
  else
    let r := navInput now gp s.prevButtons s.hold
    ({ s with prevButtons := r.1, hold := r.2.1 }, r.2.2)

/-- One 16ms poll tick of the interval set up in
`_startControllerPolling`: while the await-release gate is armed and a
gamepad is connected, the tick only watches for the all-buttons-released
snapshot and dispatches nothing; otherwise it runs the input handler (which
itself dispatches nothing when no gamepad is connected). -/
def tick (s : PollState) (now : Int) (gamepads : List Gamepad) :
    PollState × List Cmd :=
  match gamepads with
  | [] => (s, [])
  | gp :: _ =>
    if s.waitingForRelease then
      let anyPressed := gp.buttons.any (fun b => b)
      ({ s with waitingForRelease := anyPressed }, [])
    else
      handleGamepadInput s now gp

/-- The per-tick command emissions of a whole polled trace. -/
def runEmits : PollState → List (Int × List Gamepad) → List (List Cmd)
  | _, [] => []
  | s, (now, gps) :: rest =>
    let r := tick s now gps
    r.2 :: runEmits r.1 rest

/-- A snapshot on which the gate's release condition is observed: a gamepad
is connected and none of its buttons is pressed (every tracked button is seen
released on this tick). -/
def allReleased (gamepads : List Gamepad) : Bool :=
  match gamepads with
  | [] => false
  | gp :: _ => !(gp.buttons.any (fun b => b))

/-! ## Basic facts about the catalog sort -/

theorem insertByName_perm (x : RomEntry) (l : List RomEntry) :
    (insertByName x l).Perm (x :: l) := by
  induction l with
  | nil => simp [insertByName]
  | cons y ys ih =>
    simp only [insertByName]
    split
    · exact List.Perm.refl _
    · exact ((ih.cons y).trans (List.Perm.swap x y ys))

theorem sortByName_perm (l : List RomEntry) : (sortByName l).Perm l := by
  induction l with
  | nil => simp [sortByName]
  | cons x xs ih =>
    exact (insertByName_perm x (sortByName xs)).trans (ih.cons x)

theorem mem_scan_iff (t : FsTree) (x : RomEntry) :
    x ∈ scan t ↔ x ∈ scanRootList t :=
  (sortByName_perm (scanRootList t)).mem_iff

/-! ## C1: contrast argument at the documented neutral slider value -/

/-- C1.  The claim says that with the contrast slider at its documented
neutral default of 5 no `--contrast` argument is passed.  The code's own
comments document `5 = 1.0 (normal)`, but the conversion
`0.5 + (slider - 1) * (1.5 / 9)` maps slider 5 to `7/6 ≈ 1.17`, not `1.0`
(slider 4 is the value that maps to `1.0`), so launching with the default
configuration does pass `--contrast 1.17`.  This theorem evaluates the code
at the failing input. -/
theorem contrast_neutral_slider_bug :
    DEFAULTS.contrast = 5 ∧
    contrastValue 5 = 7/6 ∧
    ((7 : ℚ)/6 ≠ 1) ∧
    contrastValue 4 = 1 ∧
    launchGameArgs "game.nes" DEFAULTS =
      ["game.nes", "--symbols", "ascii+block", "--colors", "256", "--fg-only",
       "--contrast", "1.17"] := by
  refine ⟨rfl, by norm_num [contrastValue], by norm_num, by norm_num [contrastValue], ?_⟩
  have h50 : ¬ ((5 : ℚ) = 0) := by norm_num
  have hcv : contrastValue 5 = 7/6 := by norm_num [contrastValue]
  have hne : ¬ ((7/6 : ℚ) = 1) := by norm_num
  have hn : (⌊(7/6 : ℚ) * 100 + 1/2⌋ : Int) = 117 := by norm_num
  have hfix : ratToFixed2 (7/6) = "1.17" := by
    simp only [ratToFixed2, hn]
    rfl
  simp [launchGameArgs, DEFAULTS, h50, hcv, hne, hfix]

/-! ## C8: addRecentGame -/

/-- C8.  `addRecentGame p` yields `p` followed by the previous entries with
every occurrence of `p` removed, truncated to `maxRecent`; on a deduplicated
recent list that already contains `p` and fits the cap, this moves `p` to the
front with no duplication and no length change, and the `[A, B, C] + B`
scenario yields `[B, A, C]`. -/
theorem cons_filter_ne_perm (l : List String) (p : String)
    (hnd : l.Nodup) (hmem : p ∈ l) :
    (p :: l.filter (fun q => decide (q ≠ p))).Perm l := by
  induction l with
  | nil => cases hmem
  | cons a tl ih =>
    rcases List.mem_cons.mp hmem with h | h
    · subst h
      have hnotin : p ∉ tl := (List.nodup_cons.mp hnd).1
      have hf : tl.filter (fun q => !decide (q = p)) = tl := by
        apply List.filter_eq_self.mpr
        intro q hq
        simp only [Bool.not_eq_true', decide_eq_false_iff_not]
        intro hqa
        exact hnotin (hqa ▸ hq)
      simp [List.filter_cons, hf]
    · have hap : a ≠ p := by
        intro hap
        exact (List.nodup_cons.mp hnd).1 (hap ▸ h)
      have ihp := ih (List.nodup_cons.mp hnd).2 h
      have hfc : (a :: tl).filter (fun q => decide (q ≠ p)) =
          a :: tl.filter (fun q => decide (q ≠ p)) := by
        simp [List.filter_cons, hap]
      rw [hfc]
      exact (List.Perm.swap a p _).trans (ihp.cons a)

theorem addRecentGame_spec (prev : List String) (p : String) (maxRecent : Nat)
    (hnd : prev.Nodup) (hmem : p ∈ prev) (hlen : prev.length ≤ maxRecent) :
    addRecentGame prev p maxRecent = (p :: prev.filter (fun q => q ≠ p)).take maxRecent ∧
    (addRecentGame prev p maxRecent).length = prev.length ∧
    (addRecentGame prev p maxRecent).head? = some p ∧
    (addRecentGame prev p maxRecent).Nodup ∧
    (addRecentGame prev p maxRecent).Perm prev ∧
    addRecentGame ["A", "B", "C"] "B" 3 = ["B", "A", "C"] := by
  have hperm : (p :: prev.filter (fun q => decide (q ≠ p))).Perm prev :=
    cons_filter_ne_perm prev p hnd hmem
  have hlenf : (p :: prev.filter (fun q => decide (q ≠ p))).length = prev.length :=
    hperm.length_eq
  have heq : addRecentGame prev p maxRecent = p :: prev.filter (fun q => decide (q ≠ p)) := by
    unfold addRecentGame
    apply List.take_of_length_le
    rw [hlenf]
    exact hlen
  refine ⟨by unfold addRecentGame; rfl, ?_, ?_, ?_, ?_, by decide⟩
  · rw [heq, hlenf]
  · rw [heq]; rfl
  · rw [heq]
    exact hperm.nodup_iff.mpr hnd
  · rw [heq]; exact hperm

/-! ## C7: highlight movement stays in range -/

/-- The range invariant for the highlight index. -/
def navInv (len : Nat) (r : Int) : Prop :=
  0 ≤ r ∧ r ≤ max ((len : Int) - 1) 0

theorem navigateUp_inv (len : Nat) (s : Int) (h : navInv len s) :
    navInv len (navigateUp s) := by
  unfold navigateUp
  split
  · exact ⟨by omega, by rcases h with ⟨h1, h2⟩; omega⟩
  · exact h

theorem navigateDown_inv (len : Nat) (s : Int) (h : navInv len s) :
    navInv len (navigateDown len s) := by
  unfold navigateDown
  split
  · rcases h with ⟨h1, h2⟩
    constructor
    · omega
    · simp only [le_max_iff]
      left
      omega
  · exact h

theorem iterate_inv (f : Int → Int) (len : Nat)
    (hf : ∀ s, navInv len s → navInv len (f s)) (n : Nat) (s : Int) (h : navInv len s) :
    navInv len (f^[n] s) := by
  induction n generalizing s with
  | zero => simpa using h
  | succ n ih =>
    rw [Function.iterate_succ_apply]
    exact ih (f s) (hf s h)

theorem navStep_inv (len : Nat) (s : Int) (c : NavCmd) (h : navInv len s) :
    navInv len (navStep len s c) := by
  cases c with
  | up => exact navigateUp_inv len s h
  | down => exact navigateDown_inv len s h
  | pageUp => exact iterate_inv navigateUp len (fun s hs => navigateUp_inv len s hs) 10 s h
  | pageDown => exact iterate_inv (navigateDown len) len (fun s hs => navigateDown_inv len s hs) 10 s h

theorem navRun_inv (len : Nat) (cmds : List NavCmd) (s : Int) (h : navInv len s) :
    navInv len (navRun len s cmds) := by
  induction cmds generalizing s with
  | nil => simpa [navRun] using h
  | cons c cs ih =>
    have := navStep_inv len s c h
    simpa [navRun, List.foldl_cons] using ih (navStep len s c) this

/-- C7.  For any sequence of highlight-movement commands (single steps and
10-step page moves) started from highlight 0, the index stays within
`[0, listLength - 1]` (and stays 0 on an empty list); moving up at 0 and
moving down at the last index are no-ops; on an empty or absent list the
selected entry is null. -/
theorem moveHighlight_clamped (len : Nat) (cmds : List NavCmd) :
    (0 ≤ navRun len 0 cmds ∧ navRun len 0 cmds ≤ max ((len : Int) - 1) 0) ∧
    (len = 0 → navRun len 0 cmds = 0) ∧
    navigateUp 0 = 0 ∧
    navigateDown len ((len : Int) - 1) = (len : Int) - 1 ∧
    (∀ i : Int, getSelectedRom (some []) i = none) ∧
    (∀ i : Int, getSelectedRom none i = none) := by
  have hinv : navInv len (navRun len 0 cmds) := by
    apply navRun_inv
    constructor
    · omega
    · simp
  refine ⟨hinv, ?_, ?_, ?_, ?_, ?_⟩
  · intro h0
    rcases hinv with ⟨h1, h2⟩
    subst h0
    simp at h2
    omega
  · rfl
  · unfold navigateDown
    split
    · omega
    · rfl
  · intro i
    show (if 0 ≤ i then ([] : List RomEntry).get? i.toNat else none) = none
    split <;> rfl
  · intro i
    rfl

/-- C7 witness: a concrete run on a 3-item list and on the empty list. -/
theorem moveHighlight_clamped_witness :
    navRun 0 0 [NavCmd.down, NavCmd.pageDown, NavCmd.up] = 0 ∧
    (0 ≤ navRun 3 0 [NavCmd.pageDown, NavCmd.down] ∧
      navRun 3 0 [NavCmd.pageDown, NavCmd.down] ≤ max ((3 : Int) - 1) 0) :=
  ⟨(moveHighlight_clamped 0 [NavCmd.down, NavCmd.pageDown, NavCmd.up]).2.1 rfl,
   (moveHighlight_clamped 3 [NavCmd.pageDown, NavCmd.down]).1⟩

/-! ## C10: recent view resolves stored paths by first match -/

/-- C10.  Each stored recent path resolves, by `roms.find(r => r.path === path)`,
to the first catalog entry carrying that path — independent of which archive
member was launched — and contributes exactly one row at the position of the
stored occurrence. -/
theorem recent_resolves_first_match (r1 r2 : List RomEntry) (e : RomEntry)
    (p : List String) (l1 l2 : List (List String))
    (hp : e.path = p) (hfirst : ∀ x ∈ r1, x.path ≠ p) :
    showRecentRoms (l1 ++ p :: l2) (r1 ++ e :: r2) =
      showRecentRoms l1 (r1 ++ e :: r2) ++ e :: showRecentRoms l2 (r1 ++ e :: r2) := by
  have h1 : r1.find? (fun r => decide (r.path = p)) = none := by
    apply List.find?_eq_none.mpr
    intro x hx
    simp [hfirst x hx]
  subst hp
  simp [showRecentRoms, List.filterMap_cons, h1, List.find?_cons]

/-- C10 witness: a catalog whose two entries are the members of one archive
sharing the path `games.zip`; the stored path resolves to the first entry. -/
theorem recent_resolves_first_match_witness :
    showRecentRoms [["games.zip"]]
        ([] ++ ({ name := "games", path := ["games.zip"], zipEntry := some "1.nes",
                  ext := ".nes", system := "NES" } : RomEntry) ::
          [{ name := "games", path := ["games.zip"], zipEntry := some "2.nes",
             ext := ".nes", system := "NES" }]) =
      [{ name := "games", path := ["games.zip"], zipEntry := some "1.nes",
         ext := ".nes", system := "NES" }] := by
  have h := recent_resolves_first_match []
    [{ name := "games", path := ["games.zip"], zipEntry := some "2.nes",
       ext := ".nes", system := "NES" }]
    { name := "games", path := ["games.zip"], zipEntry := some "1.nes",
      ext := ".nes", system := "NES" }
    ["games.zip"] [] [] rfl (by intro x hx; cases hx)
  simpa [showRecentRoms] using h

/-! ## C6: error nodes degrade to zero entries without aborting the scan -/

theorem scanForest_append (fuel : Nat) (p : List String)
    (es1 es2 : List (String × FsTree)) :
    scanForest fuel p (es1 ++ es2) = scanForest fuel p es1 ++ scanForest fuel p es2 := by
  cases fuel <;> simp [scanForest]

theorem scanForest_cons (fuel : Nat) (p : List String) (e : String × FsTree)
    (es : List (String × FsTree)) :
    scanForest fuel p (e :: es) =
      (match fuel with
       | 0 => scanDirEntry (fun _ _ => []) p e
       | fuel' + 1 => scanDirEntry (scanForest fuel') p e) ++ scanForest fuel p es := by
  cases fuel <;> simp [scanForest]

theorem scanDirEntry_badstat (recur : List String → List (String × FsTree) → List RomEntry)
    (p : List String) (n : String) :
    scanDirEntry recur p (n, .badstat) = [] := by
  simp [scanDirEntry]

theorem scanDirEntry_baddir (recur : List String → List (String × FsTree) → List RomEntry)
    (p : List String) (n : String) (es : List (String × FsTree)) :
    scanDirEntry recur p (n, .dir false es) = [] := by
  simp [scanDirEntry]

theorem scanDirEntry_badzip (recur : List String → List (String × FsTree) → List RomEntry)
    (p : List String) (n : String) (hz : lowerStr (extname n) = ".zip") :
    scanDirEntry recur p (n, .zip none) = [] := by
  simp [scanDirEntry, handleFile, hz, scanZip]

/-- The error paths the scanner does catch degrade to zero entries: an
entry whose `stat` fails, an unreadable subdirectory, and an archive whose
open fails each contribute nothing while the remaining siblings are still
cataloged, and an unreadable root yields the empty catalog.  (The
enumeration-error path of an archive is not caught by the source; that case
is handled under `ZipEnum` / `scanZipE`.) -/
theorem scan_errors_degrade (fuel : Nat) (p : List String) (n : String) (b : FsTree)
    (es1 es2 : List (String × FsTree))
    (hb : b = .badstat ∨ (∃ es, b = .dir false es) ∨
          (b = .zip none ∧ lowerStr (extname n) = ".zip")) :
    scanForest fuel p (es1 ++ (n, b) :: es2) = scanForest fuel p (es1 ++ es2) ∧
    (∀ es, scanRootList (.dir false es) = []) ∧
    scanRootList .badstat = [] ∧
    (∀ zp, scanZip zp (.zip none) = []) := by
  refine ⟨?_, fun es => rfl, rfl, fun zp => rfl⟩
  have hmid : ∀ recur, scanDirEntry recur p (n, b) = [] := by
    intro recur
    rcases hb with rfl | ⟨es, rfl⟩ | ⟨rfl, hz⟩
    · exact scanDirEntry_badstat recur p n
    · exact scanDirEntry_baddir recur p n es
    · exact scanDirEntry_badzip recur p n hz
  rw [scanForest_append, scanForest_append, scanForest_cons]
  cases fuel with
  | zero => simp [hmid]
  | succ fuel' => simp [hmid]

/-- A stat-failing sibling contributes nothing while the healthy sibling is
still found. -/
theorem scan_errors_degrade_witness :
    scanForest 3 [] [("a.nes", FsTree.file), ("bad", FsTree.badstat)] =
      scanForest 3 [] [("a.nes", FsTree.file)] ∧
    scanForest 3 [] [("a.nes", FsTree.file)] =
      [{ name := "a", path := ["a.nes"], zipEntry := none, ext := ".nes",
         system := "NES" }] :=
  ⟨(scan_errors_degrade 3 [] "bad" FsTree.badstat [("a.nes", FsTree.file)] []
      (Or.inl rfl)).1, by decide⟩

/-- C6.  The claim says `scan` never throws for any root directory and that
an unreadable directory, a file whose stat fails, and an unopenable or
corrupt archive each contribute zero entries while the rest of the tree is
still cataloged.  The caught error paths do degrade that way (proved above),
but the "corrupt archive" half is broken in the code: `_scanZip` attaches no
`error` listener to the zipfile and its inner promise has no reject path, so
an archive that opens and then errors while its entries are read — corrupt
entry headers, invalid member names — raises an uncaught exception outside
the `try`/`catch` (crashing the process) and never settles the awaited
promise (hanging the scan): the rest of the tree is not cataloged.  This
theorem evaluates the enumeration outcomes: a caught open failure yields
zero entries, a complete listing yields the model's entries, and a
mid-enumeration error yields no catalog at all — in particular at the
concrete failing input, an archive erroring after listing `1.nes`. -/
theorem zip_enum_error_not_degraded :
    (∀ zp, scanZipE zp ZipEnum.openFailed = some []) ∧
    (∀ zp ms, scanZipE zp (ZipEnum.complete ms) =
      some (scanZip zp (FsTree.zip (some ms)))) ∧
    (∀ zp ms, scanZipE zp (ZipEnum.errorDuring ms) = none) ∧
    scanZipE ["games.zip"] (ZipEnum.errorDuring ["1.nes"]) = none :=
  ⟨fun _ => rfl, fun _ _ => rfl, fun _ _ => rfl, rfl⟩

/-! ## C9: extension classification is case-insensitive -/

theorem zipMemberEntry_sys_eq (zp zp' : List String) (zn zn' m : String) :
    (zipMemberEntry zp zn m).map (fun e => e.system) =
      (zipMemberEntry zp' zn' m).map (fun e => e.system) := by
  by_cases h : (ROM_EXTENSIONS.contains (lowerStr (extname m)) &&
      !jsStartsWith m "__MACOSX") = true
  · simp [zipMemberEntry, h]
  · simp [zipMemberEntry, h]

theorem scanZip_sys_eq (zp zp' : List String) (node : FsTree) :
    (scanZip zp node).map (fun e => e.system) =
      (scanZip zp' node).map (fun e => e.system) := by
  cases node with
  | zip m =>
    cases m with
    | none => rfl
    | some members =>
      simp only [scanZip, List.map_filterMap]
      apply List.filterMap_congr
      intro a _
      exact zipMemberEntry_sys_eq zp zp' (zipBaseName zp) (zipBaseName zp') a
  | file => rfl
  | badstat => rfl
  | dir ok es => rfl

theorem scanZip_eq_nil_iff (zp zp' : List String) (node : FsTree) :
    (scanZip zp node = [] ↔ scanZip zp' node = []) := by
  have h := scanZip_sys_eq zp zp' node
  constructor
  · intro hnil
    have : (scanZip zp' node).map (fun e => e.system) = [] := by rw [← h, hnil]; rfl
    exact List.map_eq_nil.mp this
  · intro hnil
    have : (scanZip zp node).map (fun e => e.system) = [] := by rw [h, hnil]; rfl
    exact List.map_eq_nil.mp this

/-- C9.  Both the directory scanner and the archive scanner lowercase the
extension before the recognized-extension and system-table lookups: whether a
file (or archive member) is included, and which system it is classified
under, depend only on the lowercased extension, so `MARIO.NES` is included
and classified exactly as `mario.nes` is. -/
theorem extension_case_insensitive (full1 full2 : List String) (n1 n2 : String)
    (node : FsTree) (hext : lowerStr (extname n1) = lowerStr (extname n2)) :
    ((handleFile full1 n1 node).map (fun e => e.system) =
      (handleFile full2 n2 node).map (fun e => e.system)) ∧
    ((handleFile full1 n1 node) = [] ↔ (handleFile full2 n2 node) = []) ∧
    (∀ zp zn m1 m2, lowerStr (extname m1) = lowerStr (extname m2) →
      jsStartsWith m1 "__MACOSX" = jsStartsWith m2 "__MACOSX" →
      ((zipMemberEntry zp zn m1).isSome = (zipMemberEntry zp zn m2).isSome ∧
       (zipMemberEntry zp zn m1).map (fun e => e.system) =
         (zipMemberEntry zp zn m2).map (fun e => e.system))) := by
  refine ⟨?_, ?_, ?_⟩
  · simp only [handleFile]
    rw [hext]
    split_ifs with hz hc
    · exact scanZip_sys_eq full1 full2 node
    · simp
    · rfl
  · simp only [handleFile]
    rw [hext]
    split_ifs with hz hc
    · exact scanZip_eq_nil_iff full1 full2 node
    · simp
    · simp
  · intro zp zn m1 m2 hm hmac
    simp only [zipMemberEntry]
    rw [hm, hmac]
    split_ifs <;> simp

/-- C9 witness: `MARIO.NES` is included and classified as NES exactly like
`mario.nes`. -/
theorem extension_case_insensitive_witness :
    ((handleFile ["MARIO.NES"] "MARIO.NES" FsTree.file).map (fun e => e.system) =
      (handleFile ["mario.nes"] "mario.nes" FsTree.file).map (fun e => e.system)) ∧
    (handleFile ["MARIO.NES"] "MARIO.NES" FsTree.file).map (fun e => e.system) = ["NES"] :=
  ⟨(extension_case_insensitive ["MARIO.NES"] ["mario.nes"] "MARIO.NES" "mario.nes"
      FsTree.file (by decide)).1, by decide⟩

/-! ## Structure of the scanner output -/

theorem scanForest_eq_flatMap (fuel : Nat) (p : List String)
    (es : List (String × FsTree)) :
    scanForest fuel p es = es.flatMap (scanDirEntry (scanRecur fuel) p) := by
  cases fuel <;> rfl

theorem zipMemberEntry_some_fields (zp : List String) (zn m : String) (x : RomEntry)
    (h : zipMemberEntry zp zn m = some x) :
    x.path = zp ∧ x.zipEntry = some m := by
  simp only [zipMemberEntry] at h
  split at h
  · cases h
    exact ⟨rfl, rfl⟩
  · cases h

theorem mem_scanZip_path (zp : List String) (node : FsTree) (x : RomEntry)
    (hx : x ∈ scanZip zp node) : x.path = zp := by
  unfold scanZip at hx
  split at hx
  · obtain ⟨m, _, hm⟩ := List.mem_filterMap.mp hx
    exact (zipMemberEntry_some_fields _ _ _ _ hm).1
  · cases hx

theorem mem_handleFile_path (full : List String) (n : String) (node : FsTree)
    (x : RomEntry) (hx : x ∈ handleFile full n node) : x.path = full := by
  simp only [handleFile] at hx
  split at hx
  · exact mem_scanZip_path full node x hx
  · split at hx
    · rw [List.mem_singleton.mp hx]
    · cases hx

theorem mem_scanDirEntry (recur : List String → List (String × FsTree) → List RomEntry)
    (p : List String) (n : String) (c : FsTree) (x : RomEntry)
    (hx : x ∈ scanDirEntry recur p (n, c)) :
    jsStartsWith n "." = false ∧
    ((∃ es', c = .dir true es' ∧ x ∈ recur (p ++ [n]) es') ∨ x.path = p ++ [n]) := by
  by_cases hh : jsStartsWith n "." = true
  · simp [scanDirEntry, hh] at hx
  · have hh' : jsStartsWith n "." = false := Bool.eq_false_iff.mpr hh
    refine ⟨hh', ?_⟩
    cases c with
    | dir ok es' =>
      simp only [scanDirEntry, hh'] at hx
      cases ok with
      | false => simp at hx
      | true =>
        simp only [if_true] at hx
        exact Or.inl ⟨es', rfl, by simpa using hx⟩
    | badstat => simp [scanDirEntry, hh'] at hx
    | file =>
      simp only [scanDirEntry, hh'] at hx
      exact Or.inr (mem_handleFile_path _ _ _ _ (by simpa using hx))
    | zip m =>
      simp only [scanDirEntry, hh'] at hx
      exact Or.inr (mem_handleFile_path _ _ _ _ (by simpa using hx))

theorem mem_scanForest_shape (fuel : Nat) :
    ∀ (p : List String) (es : List (String × FsTree)) (x : RomEntry),
      x ∈ scanForest fuel p es →
      ∃ n r, x.path = p ++ n :: r ∧ r.length ≤ fuel ∧
        jsStartsWith n "." = false ∧ ∀ s ∈ r, jsStartsWith s "." = false := by
  induction fuel with
  | zero =>
    intro p es x hx
    rw [scanForest_eq_flatMap] at hx
    obtain ⟨e, _, hxe⟩ := List.mem_flatMap.mp hx
    obtain ⟨n, c⟩ := e
    obtain ⟨hn, hcase⟩ := mem_scanDirEntry _ _ _ _ _ hxe
    rcases hcase with ⟨es', _, hx'⟩ | hpath
    · cases hx'
    · exact ⟨n, [], by simpa using hpath, by simp, hn, by simp⟩
  | succ fuel ih =>
    intro p es x hx
    rw [scanForest_eq_flatMap] at hx
    obtain ⟨e, _, hxe⟩ := List.mem_flatMap.mp hx
    obtain ⟨n, c⟩ := e
    obtain ⟨hn, hcase⟩ := mem_scanDirEntry _ _ _ _ _ hxe
    rcases hcase with ⟨es', _, hx'⟩ | hpath
    · obtain ⟨n', r', hpath', hlen', hn', hr'⟩ := ih (p ++ [n]) es' x hx'
      refine ⟨n, n' :: r', ?_, by simpa using hlen', hn, ?_⟩
      · rw [hpath']
        simp
      · intro s hs
        rcases List.mem_cons.mp hs with rfl | hs
        · exact hn'
        · exact hr' s hs
    · exact ⟨n, [], by simpa using hpath, by simp, hn, by simp⟩

/-! ## C3: hidden entries and the directory walk -/

/-- C3 counterexample to the claim as stated: an archive member whose base
name begins with a dot is not excluded — `_scanZip` only filters
`__MACOSX` prefixes — so a zip containing `.hidden.nes` yields an entry. -/
theorem hidden_zip_member_not_excluded :
    scan (FsTree.dir true [("games.zip", FsTree.zip (some [".hidden.nes"]))]) =
      [{ name := ".hidden", path := ["games.zip"], zipEntry := some ".hidden.nes",
         ext := ".nes", system := "NES" }] ∧
    jsStartsWith
      (basenameSuffix ".hidden.nes" (lowerStr (extname ".hidden.nes"))) "." = true := by
  decide

/-- C3 (amended).  During the directory walk, hidden entries are always
excluded: no catalog entry's path contains a component (file or directory
base name) beginning with a dot.  (Archive members are only filtered by the
`__MACOSX` prefix, not by a leading dot.) -/
theorem scan_hidden_walk_excluded (t : FsTree) (x : RomEntry) (hx : x ∈ scan t) :
    ∀ s ∈ x.path, jsStartsWith s "." = false := by
  have hx' : x ∈ scanRootList t := (mem_scan_iff t x).mp hx
  cases t with
  | file => cases hx'
  | zip m => cases hx'
  | badstat => cases hx'
  | dir ok es =>
    cases ok with
    | false => cases hx'
    | true =>
      obtain ⟨n, r, hpath, _, hn, hr⟩ := mem_scanForest_shape 3 [] es x hx'
      intro s hs
      rw [hpath] at hs
      rcases List.mem_cons.mp (by simpa using hs) with rfl | hs'
      · exact hn
      · exact hr s hs'

/-- C3 amended witness: a concrete scan whose single entry has no hidden
path component. -/
theorem scan_hidden_walk_excluded_witness :
    jsStartsWith "mario.nes" "." = false :=
  scan_hidden_walk_excluded (FsTree.dir true [("mario.nes", FsTree.file)])
    { name := "mario", path := ["mario.nes"], zipEntry := none, ext := ".nes",
      system := "NES" }
    (by decide) "mario.nes" (by decide)

/-! ## C5: depth bound and exactly-once cataloging -/

theorem find?_some_split {α : Type} (pred : α → Bool) (l : List α) (a : α)
    (h : l.find? pred = some a) :
    ∃ l1 l2, l = l1 ++ a :: l2 ∧ ∀ y ∈ l1, pred y = false := by
  induction l with
  | nil => cases h
  | cons b tl ih =>
    by_cases hb : pred b = true
    · rw [List.find?_cons_of_pos _ hb] at h
      cases h
      exact ⟨[], tl, rfl, by simp⟩
    · rw [List.find?_cons_of_neg _ hb] at h
      obtain ⟨l1, l2, rfl, h1⟩ := ih h
      refine ⟨b :: l1, l2, rfl, ?_⟩
      intro y hy
      rcases List.mem_cons.mp hy with rfl | hy'
      · exact Bool.eq_false_iff.mpr hb
      · exact h1 y hy'

theorem forestLookup_some_split (es : List (String × FsTree)) (n : String) (c : FsTree)
    (h : forestLookup es n = some c) :
    ∃ es1 es2, es = es1 ++ (n, c) :: es2 ∧ ∀ y ∈ es1, y.1 ≠ n := by
  unfold forestLookup at h
  cases hf : es.find? (fun e => decide (e.1 = n)) with
  | none => rw [hf] at h; cases h
  | some e =>
    rw [hf] at h
    obtain ⟨e1, e2⟩ := e
    have hn : e1 = n := by
      have := List.find?_some hf
      simpa using this
    have hc : e2 = c := by
      simpa using h
    subst hn
    subst hc
    obtain ⟨l1, l2, hl, h1⟩ := find?_some_split _ es _ hf
    refine ⟨l1, l2, hl, ?_⟩
    intro y hy
    have := h1 y hy
    simpa using this

theorem wfForest_nodup (fuel : Nat) (es : List (String × FsTree))
    (h : wfForest fuel es = true) : (es.map Prod.fst).Nodup := by
  cases fuel with
  | zero => exact of_decide_eq_true h
  | succ f =>
    unfold wfForest at h
    exact of_decide_eq_true (Bool.and_eq_true _ _ ▸ h).1

theorem wfForest_child (fuel : Nat) (es : List (String × FsTree)) (n : String)
    (es' : List (String × FsTree)) (h : wfForest (fuel + 1) es = true)
    (hmem : (n, FsTree.dir true es') ∈ es) : wfForest fuel es' = true := by
  unfold wfForest at h
  have h2 := (Bool.and_eq_true _ _ ▸ h).2
  have := List.all_eq_true.mp h2 _ hmem
  simpa using this

theorem hasRomFileAt_nil_inv (fuel : Nat) (es : List (String × FsTree)) (fname : String)
    (h : hasRomFileAt fuel es [] fname = true) :
    ∃ c, forestLookup es fname = some c ∧
      (c = FsTree.file ∨ ∃ m, c = FsTree.zip m) := by
  cases hlk : forestLookup es fname with
  | none => simp [hasRomFileAt, hlk] at h
  | some c =>
    cases c with
    | file => exact ⟨FsTree.file, rfl, Or.inl rfl⟩
    | zip m => exact ⟨FsTree.zip m, rfl, Or.inr ⟨m, rfl⟩⟩
    | badstat => simp [hasRomFileAt, hlk] at h
    | dir ok es' => simp [hasRomFileAt, hlk] at h

theorem hasRomFileAt_cons_inv (fuel : Nat) (es : List (String × FsTree)) (n : String)
    (rest : List String) (fname : String)
    (h : hasRomFileAt fuel es (n :: rest) fname = true) :
    ∃ f es', fuel = f + 1 ∧ forestLookup es n = some (FsTree.dir true es') ∧
      hasRomFileAt f es' rest fname = true := by
  cases fuel with
  | zero => simp [hasRomFileAt] at h
  | succ f =>
    cases hlk : forestLookup es n with
    | none => simp [hasRomFileAt, hlk] at h
    | some c =>
      cases c with
      | dir ok es' =>
        cases ok with
        | true => exact ⟨f, es', rfl, rfl, by simpa [hasRomFileAt, hlk] using h⟩
        | false => simp [hasRomFileAt, hlk] at h
      | file => simp [hasRomFileAt, hlk] at h
      | zip m => simp [hasRomFileAt, hlk] at h
      | badstat => simp [hasRomFileAt, hlk] at h

theorem handleFile_plain (full : List String) (n : String) (node : FsTree)
    (hext : lowerStr (extname n) ∈ ROM_EXTENSIONS) :
    handleFile full n node = [plainEntry full n] := by
  have hz : ¬ (lowerStr (extname n) = ".zip") := by
    intro hzz
    rw [hzz] at hext
    exact absurd hext (by decide)
  have hc : ROM_EXTENSIONS.contains (lowerStr (extname n)) = true :=
    List.elem_eq_true_of_mem hext
  simp [handleFile, plainEntry, hz, hc, hext]

theorem mem_scanDirEntry_scanRecur_path (fuel : Nat) (p : List String) (n : String)
    (c : FsTree) (x : RomEntry) (hx : x ∈ scanDirEntry (scanRecur fuel) p (n, c)) :
    ∃ r, x.path = p ++ n :: r := by
  obtain ⟨_, hcase⟩ := mem_scanDirEntry _ _ _ _ _ hx
  rcases hcase with ⟨es', _, hx'⟩ | hpath
  · cases fuel with
    | zero => cases hx'
    | succ f =>
      obtain ⟨n', r', hp', _, _, _⟩ := mem_scanForest_shape f (p ++ [n]) es' x hx'
      exact ⟨n' :: r', by rw [hp']; simp⟩
  · exact ⟨[], by simpa using hpath⟩

theorem flatMap_branches_filter_nil (fuel : Nat) (p : List String)
    (l : List (String × FsTree)) (m : String) (rest : List String)
    (hl : ∀ y ∈ l, y.1 ≠ m) :
    (l.flatMap (scanDirEntry (scanRecur fuel) p)).filter
        (fun x => decide (x.path = p ++ m :: rest)) = [] := by
  rw [List.filter_eq_nil_iff]
  intro x hx
  obtain ⟨e, he, hxe⟩ := List.mem_flatMap.mp hx
  obtain ⟨n, c⟩ := e
  obtain ⟨r, hr⟩ := mem_scanDirEntry_scanRecur_path fuel p n c x hxe
  simp only [hr, decide_eq_true_eq]
  intro heq
  have hcancel := List.append_cancel_left heq
  injection hcancel with h1 _
  exact hl (n, c) he h1

theorem scanForest_target_filter (ds : List String) :
    ∀ (fuel : Nat) (p : List String) (es : List (String × FsTree)) (fname : String),
      wfForest fuel es = true →
      hasRomFileAt fuel es ds fname = true →
      (∀ s ∈ ds ++ [fname], jsStartsWith s "." = false) →
      lowerStr (extname fname) ∈ ROM_EXTENSIONS →
      (scanForest fuel p es).filter (fun x => decide (x.path = p ++ (ds ++ [fname]))) =
        [plainEntry (p ++ (ds ++ [fname])) fname] := by
  induction ds with
  | nil =>
    intro fuel p es fname hwf hfile hhid hext
    obtain ⟨c, hlk, hcfile⟩ := hasRomFileAt_nil_inv fuel es fname hfile
    obtain ⟨es1, es2, rfl, hes1⟩ := forestLookup_some_split _ fname c hlk
    have hnodup := wfForest_nodup fuel _ hwf
    have hes2 : ∀ y ∈ es2, y.1 ≠ fname := by
      intro y hy heq
      have hmap : ((es1 ++ (fname, c) :: es2).map Prod.fst) =
          es1.map Prod.fst ++ fname :: es2.map Prod.fst := by simp
      rw [hmap] at hnodup
      have h2 := (List.nodup_cons.mp (List.Nodup.of_append_right hnodup)).1
      exact h2 (heq ▸ List.mem_map_of_mem Prod.fst hy)
    have hhidf : jsStartsWith fname "." = false := hhid fname (by simp)
    rw [scanForest_eq_flatMap, List.flatMap_append, List.flatMap_cons,
        List.filter_append, List.filter_append]
    rw [show ([] : List String) ++ [fname] = fname :: ([] : List String) from rfl]
    rw [flatMap_branches_filter_nil fuel p es1 fname [] hes1,
        flatMap_branches_filter_nil fuel p es2 fname [] hes2]
    have hmid : scanDirEntry (scanRecur fuel) p (fname, c) =
        handleFile (p ++ [fname]) fname c := by
      rcases hcfile with rfl | ⟨m, rfl⟩ <;> simp [scanDirEntry, hhidf]
    rw [hmid, handleFile_plain _ _ _ hext]
    simp [plainEntry]
  | cons dn ds' ih =>
    intro fuel p es fname hwf hfile hhid hext
    obtain ⟨f, es', rfl, hlk, hfile'⟩ := hasRomFileAt_cons_inv fuel es dn ds' fname hfile
    obtain ⟨es1, es2, rfl, hes1⟩ := forestLookup_some_split _ dn _ hlk
    have hnodup := wfForest_nodup (f + 1) _ hwf
    have hwf' : wfForest f es' = true :=
      wfForest_child f _ dn es' hwf (by simp)
    have hes2 : ∀ y ∈ es2, y.1 ≠ dn := by
      intro y hy heq
      have hmap : ((es1 ++ (dn, FsTree.dir true es') :: es2).map Prod.fst) =
          es1.map Prod.fst ++ dn :: es2.map Prod.fst := by simp
      rw [hmap] at hnodup
      have h2 := (List.nodup_cons.mp (List.Nodup.of_append_right hnodup)).1
      exact h2 (heq ▸ List.mem_map_of_mem Prod.fst hy)
    have hhid1 : jsStartsWith dn "." = false := hhid dn (by simp)
    have hhid' : ∀ s ∈ ds' ++ [fname], jsStartsWith s "." = false := by
      intro s hs
      apply hhid
      simp only [List.cons_append, List.mem_cons]
      exact Or.inr hs
    rw [scanForest_eq_flatMap, List.flatMap_append, List.flatMap_cons,
        List.filter_append, List.filter_append]
    rw [show (dn :: ds') ++ [fname] = dn :: (ds' ++ [fname]) from rfl]
    rw [flatMap_branches_filter_nil (f + 1) p es1 dn (ds' ++ [fname]) hes1,
        flatMap_branches_filter_nil (f + 1) p es2 dn (ds' ++ [fname]) hes2]
    have hmid : scanDirEntry (scanRecur (f + 1)) p (dn, FsTree.dir true es') =
        scanForest f (p ++ [dn]) es' := by
      simp [scanDirEntry, hhid1, scanRecur]
    rw [hmid]
    have hrec := ih f (p ++ [dn]) es' fname hwf' hfile' hhid' hext
    rw [show (p ++ [dn]) ++ (ds' ++ [fname]) = p ++ dn :: (ds' ++ [fname]) by simp] at hrec
    rw [hrec]
    simp

/-- C5 counterexample to the claim as stated: a hidden file with a
recognized extension at depth 1 is excluded, so not every file with a
recognized extension within the depth bound appears in the catalog. -/
theorem depth_claim_hidden_counterexample :
    lowerStr (extname ".ab.nes") ∈ ROM_EXTENSIONS ∧
    scan (FsTree.dir true [(".ab.nes", FsTree.file)]) = [] := by
  decide

/-- C5 (amended).  For every directory tree (with well-formed listings),
every non-hidden file with a recognized extension lying at most 3 directory
levels below the root — where neither the file nor any enclosing directory
name begins with a dot — is cataloged exactly once, with the extension
table's system classification; and no catalog entry of any scan has a path
of more than root+3 directory components (`path.length ≤ 4` counting the
file name). -/
theorem scan_depth_bound_and_unique (es : List (String × FsTree))
    (ds : List String) (fname : String)
    (hwf : wfForest 3 es = true)
    (hfile : hasRomFileAt 3 es ds fname = true)
    (hhid : ∀ s ∈ ds ++ [fname], jsStartsWith s "." = false)
    (hext : lowerStr (extname fname) ∈ ROM_EXTENSIONS) :
    (scan (FsTree.dir true es)).filter (fun x => decide (x.path = ds ++ [fname])) =
      [plainEntry (ds ++ [fname]) fname] ∧
    ∀ (t : FsTree) (x : RomEntry), x ∈ scan t → x.path.length ≤ 4 := by
  constructor
  · have h := scanForest_target_filter ds 3 [] es fname hwf hfile hhid hext
    simp only [List.nil_append] at h
    have hperm := (sortByName_perm (scanForest 3 [] es)).filter
      (fun x => decide (x.path = ds ++ [fname]))
    rw [h] at hperm
    exact List.Perm.eq_singleton hperm
  · intro t x hx
    have hx' : x ∈ scanRootList t := (mem_scan_iff t x).mp hx
    cases t with
    | file => cases hx'
    | zip m => cases hx'
    | badstat => cases hx'
    | dir ok es' =>
      cases ok with
      | false => cases hx'
      | true =>
        obtain ⟨n, r, hpath, hlen, _, _⟩ := mem_scanForest_shape 3 [] es' x hx'
        rw [hpath]
        simp only [List.nil_append, List.length_cons]
        omega

/-- C5 amended witness: a file two directory levels down is cataloged
exactly once with the correct system. -/
theorem scan_depth_bound_and_unique_witness :
    (scan (FsTree.dir true
        [("nintendo", FsTree.dir true
           [("nes", FsTree.dir true [("mario.nes", FsTree.file)])])])).filter
      (fun x => decide (x.path = ["nintendo", "nes", "mario.nes"])) =
      [plainEntry ["nintendo", "nes", "mario.nes"] "mario.nes"] :=
  (scan_depth_bound_and_unique
    [("nintendo", FsTree.dir true
       [("nes", FsTree.dir true [("mario.nes", FsTree.file)])])]
    ["nintendo", "nes"] "mario.nes" (by decide) (by decide) (by decide) (by decide)).1

/-! ## C4: archive members with recognized extensions -/

/-- C4 counterexample to the claim as stated: an archive member with a
recognized ROM extension that sits under `__MACOSX` produces no entry. -/
theorem macosx_member_counterexample :
    lowerStr (extname "__MACOSX/._game.nes") ∈ ROM_EXTENSIONS ∧
    scanZip ["games.zip"] (FsTree.zip (some ["__MACOSX/._game.nes"])) = [] := by
  decide

theorem zipMemberEntry_pos (zp : List String) (zn fn : String)
    (hext : lowerStr (extname fn) ∈ ROM_EXTENSIONS)
    (hmac : jsStartsWith fn "__MACOSX" = false) :
    zipMemberEntry zp zn fn =
      some { name := if isAllDigits (basenameSuffix fn (lowerStr (extname fn))) ||
                       (basenameSuffix fn (lowerStr (extname fn))).data.length < 3
                     then zn else basenameSuffix fn (lowerStr (extname fn)),
             path := zp, zipEntry := some fn, ext := lowerStr (extname fn),
             system := systemFor (lowerStr (extname fn)) } := by
  have hc : ROM_EXTENSIONS.contains (lowerStr (extname fn)) = true :=
    List.elem_eq_true_of_mem hext
  simp [zipMemberEntry, hc, hmac, hext]

/-- C4 (amended).  Every archive member with a recognized (lowercased) ROM
extension whose inner name does not begin with `__MACOSX` yields exactly one
entry: path = archive path, `zipEntry` = inner name, system from the
extension table, and name = the member's base name unless that base name is
purely numeric or shorter than 3 characters, in which case the archive's own
base filename is used.  The `games.zip` ∋ `1.nes`, `2.nes` scenario follows
concretely. -/
theorem zip_member_exactly_once (zipPath : List String) (ms1 ms2 : List String)
    (fn : String)
    (hext : lowerStr (extname fn) ∈ ROM_EXTENSIONS)
    (hmac : jsStartsWith fn "__MACOSX" = false)
    (h1 : fn ∉ ms1) (h2 : fn ∉ ms2) :
    (scanZip zipPath (FsTree.zip (some (ms1 ++ fn :: ms2)))).filter
        (fun x => decide (x.zipEntry = some fn)) =
      [{ name := if isAllDigits (basenameSuffix fn (lowerStr (extname fn))) ||
                   (basenameSuffix fn (lowerStr (extname fn))).data.length < 3
                 then zipBaseName zipPath else basenameSuffix fn (lowerStr (extname fn)),
         path := zipPath, zipEntry := some fn, ext := lowerStr (extname fn),
         system := systemFor (lowerStr (extname fn)) }] ∧
    scan (FsTree.dir true [("games.zip", FsTree.zip (some ["1.nes", "2.nes"]))]) =
      [{ name := "games", path := ["games.zip"], zipEntry := some "1.nes",
         ext := ".nes", system := "NES" },
       { name := "games", path := ["games.zip"], zipEntry := some "2.nes",
         ext := ".nes", system := "NES" }] := by
  refine ⟨?_, by decide⟩
  simp only [scanZip, List.filterMap_append, List.filterMap_cons,
    zipMemberEntry_pos zipPath (zipBaseName zipPath) fn hext hmac,
    List.filter_append]
  have hside : ∀ (l : List String), fn ∉ l →
      (l.filterMap (zipMemberEntry zipPath (zipBaseName zipPath))).filter
        (fun x => decide (x.zipEntry = some fn)) = [] := by
    intro l hnl
    rw [List.filter_eq_nil_iff]
    intro x hx
    obtain ⟨m, hm, hms⟩ := List.mem_filterMap.mp hx
    have := (zipMemberEntry_some_fields _ _ _ _ hms).2
    simp only [this, decide_eq_true_eq]
    intro heq
    injection heq with heq'
    exact hnl (heq' ▸ hm)
  rw [hside ms1 h1, List.filter_cons]
  simp [hside ms2 h2]

/-- C4 amended witness: a single numeric-named member resolves to one entry
named after the archive. -/
theorem zip_member_exactly_once_witness :
    (scanZip ["games.zip"] (FsTree.zip (some ["1.nes"]))).filter
        (fun x => decide (x.zipEntry = some "1.nes")) =
      [{ name := "games", path := ["games.zip"], zipEntry := some "1.nes",
         ext := ".nes", system := "NES" }] :=
  (zip_member_exactly_once ["games.zip"] [] [] "1.nes" (by decide) (by decide)
    (by decide) (by decide)).1

/-- C8 witness: the `[A, B, C] + B` scenario instantiates the theorem. -/
theorem addRecentGame_spec_witness :
    (addRecentGame ["A", "B", "C"] "B" 3).length = 3 ∧
    (addRecentGame ["A", "B", "C"] "B" 3).head? = some "B" :=
  ⟨(addRecentGame_spec ["A", "B", "C"] "B" 3 (by decide) (by decide) (by decide)).2.1,
   (addRecentGame_spec ["A", "B", "C"] "B" 3 (by decide) (by decide) (by decide)).2.2.1⟩

/-! ## C2: the await-release gate -/

theorem tick_waiting_emits_nil (s : PollState) (now : Int) (gps : List Gamepad)
    (h : s.waitingForRelease = true) :
    (tick s now gps).2 = [] ∧
    ((tick s now gps).1.waitingForRelease = false → allReleased gps = true) := by
  cases gps with
  | nil =>
    refine ⟨rfl, ?_⟩
    intro hf
    have : s.waitingForRelease = false := hf
    rw [h] at this
    cases this
  | cons gp rest =>
    constructor
    · simp [tick, h]
    · intro hf
      simp only [tick, h, if_true] at hf
      simp [allReleased, hf]

theorem runEmits_gate (inputs : List (Int × List Gamepad)) :
    ∀ (s : PollState), s.waitingForRelease = true →
      ∀ (i : Nat) (cs : List Cmd), (runEmits s inputs)[i]? = some cs → cs ≠ [] →
        ∃ j : Nat, j < i ∧ ∃ x : Int × List Gamepad,
          inputs[j]? = some x ∧ allReleased x.2 = true := by
  induction inputs with
  | nil =>
    intro s _ i cs hget _
    simp [runEmits] at hget
  | cons a rest ih =>
    intro s hs i cs hget hne
    obtain ⟨now, gps⟩ := a
    have ht := tick_waiting_emits_nil s now gps hs
    cases i with
    | zero =>
      have hcs : (tick s now gps).2 = cs := by simpa [runEmits] using hget
      exact absurd (hcs ▸ ht.1) hne
    | succ i' =>
      have hget' : (runEmits (tick s now gps).1 rest)[i']? = some cs := by
        simpa [runEmits] using hget
      by_cases hw : (tick s now gps).1.waitingForRelease = true
      · obtain ⟨j, hj, x, hx, hrel⟩ := ih _ hw i' cs hget' hne
        exact ⟨j + 1, by omega, x, by simpa using hx, hrel⟩
      · have hrel : allReleased gps = true := ht.2 (Bool.eq_false_iff.mpr hw)
        exact ⟨0, by omega, (now, gps), by simp, hrel⟩

/-- C2.  Once the await-release gate set up in `_startControllerPolling` is
armed, a poll tick dispatches no normalized command of any kind (navigation,
launch, or dialog commands alike), and no command is emitted at any later
tick until some earlier tick has observed a connected gamepad with every
tracked button released. -/
theorem awaitRelease_gate (s0 : PollState) (inputs : List (Int × List Gamepad))
    (h : s0.waitingForRelease = true) :
    (∀ now gps, (tick s0 now gps).2 = []) ∧
    (∀ (i : Nat) (cs : List Cmd), (runEmits s0 inputs)[i]? = some cs → cs ≠ [] →
      ∃ j : Nat, j < i ∧ ∃ x : Int × List Gamepad,
        inputs[j]? = some x ∧ allReleased x.2 = true) :=
  ⟨fun now gps => (tick_waiting_emits_nil s0 now gps h).1,
   runEmits_gate inputs s0 h⟩

/-- C2 witness: the freshly started polling state has the gate armed and a
tick with a held button dispatches nothing. -/
theorem awaitRelease_gate_witness :
    (PollState.start false).waitingForRelease = true ∧
    (tick (PollState.start false) 0 [⟨[true, true], []⟩]).2 = [] :=
  ⟨rfl, (awaitRelease_gate (PollState.start false) [] rfl).1 0 [⟨[true, true], []⟩]⟩
